import Mathlib

/-
Verification of the Move type-representation core (`language_storage.rs`):
the `TypeTag` / `StructTag` / `ModuleId` data model, canonical string
rendering, structural ordering, abstract gas sizes, address extraction,
serde spelling compatibility and the textual grammar.

External leaves that are not part of the sources (`account_address.rs`,
`identifier.rs`, `gas_algebra.rs`, the `parsing` module) are modelled from
the specification; every such definition carries a doc comment starting
with "Modelled from the spec".  Account addresses are represented by their
numeric value (a 32-byte address is a `Nat` below `16 ^ 64`), identifiers
by Lean strings.
-/

set_option maxHeartbeats 1000000

/-- Modelled from the spec: the address space bound. Addresses are fixed-width
32-byte identifiers (`account_address.rs` is not among the sources), so a
valid address value is below `16 ^ 64`. -/
def addrBound : Nat := 16 ^ 64

mutual
/-- `TypeTag` (`language_storage.rs` lines 31-57): the recursive sum of Move
runtime types, constructors in source declaration order — `u16`, `u32`,
`u256` were appended after `vector` and `struct`, as in the source. -/
inductive TypeTag : Type where
  | bool
  | u8
  | u64
  | u128
  | address
  | signer
  | vector (t : TypeTag)
  | struct (s : StructTag)
  | u16
  | u32
  | u256

/-- `StructTag` (`language_storage.rs` lines 167-175): address, module name,
struct name and the ordered generic arguments. -/
inductive StructTag : Type where
  | mk (address : Nat) (module : String) (name : String) (type_params : List TypeTag)
end

/-- Field accessor for the modelled `StructTag.address`. -/
def StructTag.address : StructTag → Nat
  | .mk a _ _ _ => a

/-- Field accessor for the modelled `StructTag.module`. -/
def StructTag.module : StructTag → String
  | .mk _ m _ _ => m

/-- Field accessor for the modelled `StructTag.name`. -/
def StructTag.name : StructTag → String
  | .mk _ _ n _ => n

/-- Field accessor for the modelled `StructTag.type_params`. -/
def StructTag.type_params : StructTag → List TypeTag
  | .mk _ _ _ ps => ps

/-- `ModuleId` (`language_storage.rs` lines 298-304): address plus module
name. -/
structure ModuleId where
  address : Nat
  name : String
deriving DecidableEq, Repr

/-- Lowercase hex digit character for a digit value below 16. -/
def hexDigitChar (d : Nat) : Char :=
  if d < 10 then Char.ofNat (48 + d) else Char.ofNat (87 + d)

/-- Little-endian base-16 digit list of `a`, padded to exactly `w` digits. -/
def leDigits : Nat → Nat → List Nat
  | 0, _ => []
  | w + 1, a => a % 16 :: leDigits w (a / 16)

/-- The 64 hex characters of an address value, most significant digit first
(lowercase, zero-padded). -/
def addrChars (a : Nat) : List Char :=
  ((leDigits 64 a).reverse).map hexDigitChar

/-- Modelled from the spec: `AccountAddress::to_canonical_display`
(`account_address.rs` is not among the sources; spec §4.1): lowercase hex,
zero-padded to the full fixed width, with a `0x` prefix exactly when `wp`
is set. -/
def addrCanonicalChars (wp : Bool) (a : Nat) : List Char :=
  (if wp then ['0', 'x'] else []) ++ addrChars a

mutual
/-- `TypeTag::to_canonical_display` (`language_storage.rs` lines 81-111),
producing the character list of the rendered string. -/
def canonT (wp : Bool) : TypeTag → List Char
  | .bool => "bool".data
  | .u8 => "u8".data
  | .u16 => "u16".data
  | .u32 => "u32".data
  | .u64 => "u64".data
  | .u128 => "u128".data
  | .u256 => "u256".data
  | .address => "address".data
  | .signer => "signer".data
  | .vector t => "vector<".data ++ canonT wp t ++ ">".data
  | .struct s => canonS wp s

/-- `StructTag::to_canonical_display` (`language_storage.rs` lines 215-249):
canonical address, `::`, module, `::`, name, then the generic block. -/
def canonS (wp : Bool) : StructTag → List Char
  | .mk a m n ps =>
      addrCanonicalChars wp a ++ "::".data ++ m.data ++ "::".data ++ n.data ++ canonArgs wp ps

/-- The generic-argument block of the canonical rendering: empty when there
are no arguments, otherwise `<` + first + (`,` + next)* + `>` exactly as the
source writes it (no space after the comma). -/
def canonArgs (wp : Bool) : List TypeTag → List Char
  | [] => []
  | t :: ts => "<".data ++ canonT wp t ++ canonArgsTail wp ts ++ ">".data

/-- The `,`-separated tail of the canonical generic-argument block. -/
def canonArgsTail (wp : Bool) : List TypeTag → List Char
  | [] => []
  | t :: ts => ",".data ++ canonT wp t ++ canonArgsTail wp ts
end

/-- `TypeTag::to_canonical_string` (`language_storage.rs` lines 76-78). -/
def TypeTag.to_canonical_string (t : TypeTag) (wp : Bool) : String :=
  String.mk (canonT wp t)

/-- `StructTag::to_canonical_string` (`language_storage.rs` lines 210-212). -/
def StructTag.to_canonical_string (s : StructTag) (wp : Bool) : String :=
  String.mk (canonS wp s)

/-- `ModuleId::to_canonical_string` (`language_storage.rs` lines 325-352):
canonical address, `::`, name. -/
def ModuleId.to_canonical_string (m : ModuleId) (wp : Bool) : String :=
  String.mk (addrCanonicalChars wp m.address ++ "::".data ++ m.name.data)

/-- Modelled from the spec: the gas-algebra base constants
`ENUM_BASE_ABSTRACT_SIZE` (`gas_algebra.rs` is not among the sources).
Only its positivity matters for the claims proved here. -/
def ENUM_BASE_ABSTRACT_SIZE : Nat := 8

/-- Modelled from the spec: the gas-algebra base constant
`BOX_ABSTRACT_SIZE` (`gas_algebra.rs` is not among the sources). -/
def BOX_ABSTRACT_SIZE : Nat := 8

/-- `TYPETAG_ENUM_ABSTRACT_SIZE` (`language_storage.rs` lines 26-27):
enum base size plus box size. -/
def TYPETAG_ENUM_ABSTRACT_SIZE : Nat :=
  ENUM_BASE_ABSTRACT_SIZE + BOX_ABSTRACT_SIZE

/-- Modelled from the spec: `AccountAddress::abstract_size_for_gas_metering`
(not among the sources): the fixed 32-byte address width. -/
def addressAbstractSize : Nat := 32

/-- Modelled from the spec: `Identifier::abstract_size_for_gas_metering`
(not among the sources): the size contributed by a name. -/
def identAbstractSize (s : String) : Nat := s.length

mutual
/-- `TypeTag::abstract_size_for_gas_metering` (`language_storage.rs` lines
116-131): the fixed enum constant plus the recursive content size — zero for
the bare primitives, the inner size for `vector`, the struct size for
`struct`. -/
def abstractSizeT : TypeTag → Nat
  | .vector x => TYPETAG_ENUM_ABSTRACT_SIZE + abstractSizeT x
  | .struct y => TYPETAG_ENUM_ABSTRACT_SIZE + abstractSizeS y
  | _ => TYPETAG_ENUM_ABSTRACT_SIZE + 0

/-- `StructTag::abstract_size_for_gas_metering` (`language_storage.rs` lines
254-265): address size + module-name size + struct-name size + the summed
sizes of the type arguments. -/
def abstractSizeS : StructTag → Nat
  | .mk _ m n ps =>
      addressAbstractSize + identAbstractSize m + identAbstractSize n + abstractSizeL ps

/-- The fold over the type arguments in
`StructTag::abstract_size_for_gas_metering`. -/
def abstractSizeL : List TypeTag → Nat
  | [] => 0
  | t :: ts => abstractSizeT t + abstractSizeL ts
end

/-- Insertion into the modelled `IndexSet`: appended at the end when absent,
no change when already present (first-seen order, duplicate-free). -/
def insertIdx (l : List Nat) (a : Nat) : List Nat :=
  if a ∈ l then l else l ++ [a]

mutual
/-- `TypeTag::find_addresses_internal` (`language_storage.rs` lines 140-156);
the `IndexSet` accumulator is modelled as a duplicate-free list in insertion
order. -/
def findAddressesT : TypeTag → List Nat → List Nat
  | .vector inner, acc => findAddressesT inner acc
  | .struct tag, acc => allAddressesInternalS tag acc
  | _, acc => acc

/-- `StructTag::all_addresses_internal` (`language_storage.rs` lines 273-285):
insert the struct's own address first, then traverse the type parameters. -/
def allAddressesInternalS : StructTag → List Nat → List Nat
  | .mk a _ _ ps, acc => findAddressesL ps (insertIdx acc a)

/-- The loop over type parameters in `StructTag::all_addresses_internal`. -/
def findAddressesL : List TypeTag → List Nat → List Nat
  | [], acc => acc
  | t :: ts, acc => findAddressesL ts (findAddressesT t acc)
end

/-- `TypeTag::all_addresses` (`language_storage.rs` lines 134-138). -/
def TypeTag.all_addresses (t : TypeTag) : List Nat :=
  findAddressesT t []

/-- `StructTag::all_addresses` (`language_storage.rs` lines 267-271). -/
def StructTag.all_addresses (s : StructTag) : List Nat :=
  allAddressesInternalS s []

mutual
/-- Specification-side pre-order address listing (with duplicates) of a
`TypeTag`, used to state what the traversal collects. -/
def preAddrsT : TypeTag → List Nat
  | .vector inner => preAddrsT inner
  | .struct tag => preAddrsS tag
  | _ => []

/-- Specification-side pre-order address listing (with duplicates) of a
`StructTag`: own address first, then each argument's addresses. -/
def preAddrsS : StructTag → List Nat
  | .mk a _ _ ps => a :: preAddrsL ps

/-- Concatenated pre-order address listings of a list of type arguments. -/
def preAddrsL : List TypeTag → List Nat
  | [] => []
  | t :: ts => preAddrsT t ++ preAddrsL ts
end

/-- First-seen deduplication of a list, the order-preserving set semantics of
`IndexSet`. -/
def firstSeenDedup (l : List Nat) : List Nat :=
  l.foldl insertIdx []

/-- Modelled from the spec: `AccountAddress::short_str_lossless` (not among
the sources): the hex digits with leading zeros trimmed, `"0"` for the zero
address, no `0x` prefix. -/
def shortStrLossless (a : Nat) : List Char :=
  let t := (addrChars a).dropWhile (fun c => c = '0')
  if t = [] then ['0'] else t

mutual
/-- `impl Display for TypeTag` (`language_storage.rs` lines 395-411): the
unstable human-oriented rendering. -/
def displayT : TypeTag → List Char
  | .struct s => displayS s
  | .vector ty => "vector<".data ++ displayT ty ++ ">".data
  | .u8 => "u8".data
  | .u16 => "u16".data
  | .u32 => "u32".data
  | .u64 => "u64".data
  | .u128 => "u128".data
  | .u256 => "u256".data
  | .address => "address".data
  | .signer => "signer".data
  | .bool => "bool".data

/-- `impl Display for StructTag` (`language_storage.rs` lines 374-393): `0x`
plus the short (unpadded) address, and `, ` — with a space — between generic
arguments. -/
def displayS : StructTag → List Char
  | .mk a m n ps =>
      "0x".data ++ shortStrLossless a ++ "::".data ++ m.data ++ "::".data ++ n.data ++ displayArgs ps

/-- The generic-argument block of the `Display` rendering. -/
def displayArgs : List TypeTag → List Char
  | [] => []
  | t :: ts => "<".data ++ displayT t ++ displayArgsTail ts ++ ">".data

/-- The `, `-separated tail of the `Display` generic-argument block. -/
def displayArgsTail : List TypeTag → List Char
  | [] => []
  | t :: ts => ", ".data ++ displayT t ++ displayArgsTail ts
end

/-- `Display` for `TypeTag` as a string. -/
def TypeTag.display (t : TypeTag) : String :=
  String.mk (displayT t)

/-- `Display` for `StructTag` as a string. -/
def StructTag.display (s : StructTag) : String :=
  String.mk (displayS s)

/-- `impl Display for ModuleId` (`language_storage.rs` lines 355-359): it
delegates to the canonical display with `with_prefix = false`. -/
def ModuleId.display (m : ModuleId) : String :=
  m.to_canonical_string false

/-- Specification-side predicate for C10: the type is built only from
non-struct variants (primitives and `vector` nestings of them). -/
def structFreeT : TypeTag → Bool
  | .vector t => structFreeT t
  | .struct _ => false
  | _ => true

/-- Lowercase hex digit character predicate (digits `0-9` and letters
`a-f`, by code point). -/
def isLowerHexChar (c : Char) : Bool :=
  (48 ≤ c.toNat && c.toNat ≤ 57) || (97 ≤ c.toNat && c.toNat ≤ 102)

/-- Numeric value of a lowercase hex digit character. -/
def hexCharVal (c : Char) : Nat :=
  if c ≤ '9' then c.toNat - 48 else c.toNat - 87

/-- Big-endian hex decoding of a character list. -/
def decodeHexNat (cs : List Char) : Nat :=
  cs.foldl (fun acc c => acc * 16 + hexCharVal c) 0

/-- The canonical address rendering as a string. -/
def addrCanonicalString (wp : Bool) (a : Nat) : String :=
  String.mk (addrCanonicalChars wp a)

/-- The separator-prefixed tail of a joined string list: the specification
shape of everything an intercalation appends after its first element. -/
def joinTail (s : String) : List String → String
  | [] => ""
  | a :: as => s ++ a ++ joinTail s as

/-- Declaration index of a `TypeTag` constructor, in source declaration
order (`language_storage.rs` lines 31-57). -/
def tagIdx : TypeTag → Nat
  | .bool => 0
  | .u8 => 1
  | .u64 => 2
  | .u128 => 3
  | .address => 4
  | .signer => 5
  | .vector _ => 6
  | .struct _ => 7
  | .u16 => 8
  | .u32 => 9
  | .u256 => 10

/-- Character comparison by code point; on the ASCII identifier strings of
this model it coincides with Rust's byte-lexicographic `str` ordering. -/
def cmpChar (a b : Char) : Ordering :=
  compare a.toNat b.toNat

/-- Generic lexicographic list comparison matching the derived `Ord` of Rust
slices and `Vec`: element-wise first, a strict prefix is smaller. -/
def cmpList {α : Type} (c : α → α → Ordering) : List α → List α → Ordering
  | [], [] => .eq
  | [], _ :: _ => .lt
  | _ :: _, [] => .gt
  | a :: as, b :: bs => (c a b).then (cmpList c as bs)

/-- Derived `Ord` of `Identifier` (a string): byte-lexicographic. -/
def cmpStr (a b : String) : Ordering :=
  cmpList cmpChar a.data b.data

mutual
/-- The derived `Ord` of `TypeTag` (`language_storage.rs` line 29): variant
declaration order first, then structural comparison of the payload.  On two
equal primitive variants `Nat.compare` of the indices returns `eq`, as the
derive does. -/
def cmpT : TypeTag → TypeTag → Ordering
  | .vector x, .vector y => cmpT x y
  | .struct x, .struct y => cmpS x y
  | a, b => compare (tagIdx a) (tagIdx b)

/-- The derived `Ord` of `StructTag` (`language_storage.rs` line 167):
lexicographic over `(address, module, name, type_params)`.  The byte-wise
order of the fixed-width `AccountAddress` coincides with the numeric order
used here. -/
def cmpS : StructTag → StructTag → Ordering
  | .mk a1 m1 n1 p1, .mk a2 m2 n2 p2 =>
      (compare a1 a2).then ((cmpStr m1 m2).then ((cmpStr n1 n2).then (cmpTL p1 p2)))

/-- Lexicographic comparison of the type-parameter lists (derived `Ord` of
`Vec<TypeTag>`). -/
def cmpTL : List TypeTag → List TypeTag → Ordering
  | [], [] => .eq
  | [], _ :: _ => .lt
  | _ :: _, [] => .gt
  | a :: as, b :: bs => (cmpT a b).then (cmpTL as bs)
end

/-- The derived `Ord` of `ModuleId` (`language_storage.rs` line 298):
`(address, name)` lexicographic. -/
def cmpM (a b : ModuleId) : Ordering :=
  (compare a.address b.address).then (cmpStr a.name b.name)

/-- The payload comparison applied once the variant indices agree: the
structural comparison within a variant. -/
def cmpInnerT : TypeTag → TypeTag → Ordering
  | .vector x, .vector y => cmpT x y
  | .struct x, .struct y => cmpS x y
  | _, _ => .eq

/-- Value-based hash of a string, modelling the derived `Hash` on
`Identifier`. -/
def hashStrN (s : String) : Nat :=
  s.data.foldl (fun h c => h * 31 + c.toNat) 7

mutual
/-- Model of the derived value-based `Hash` for `TypeTag`. -/
def hashT : TypeTag → Nat
  | .vector t => 11 + 31 * hashT t
  | .struct s => 12 + 31 * hashS s
  | x => tagIdx x

/-- Model of the derived value-based `Hash` for `StructTag`. -/
def hashS : StructTag → Nat
  | .mk a m n ps => ((a * 31 + hashStrN m) * 31 + hashStrN n) * 31 + hashTL ps

/-- Hash of a type-parameter list. -/
def hashTL : List TypeTag → Nat
  | [] => 1
  | t :: ts => hashT t * 31 + hashTL ts
end

/-- Model of the derived value-based `Hash` for `ModuleId`. -/
def hashM (m : ModuleId) : Nat :=
  m.address * 31 + hashStrN m.name

/-- Minimal JSON value tree, the carrier of the serde model. -/
inductive Json : Type where
  | str (s : String)
  | arr (xs : List Json)
  | obj (fields : List (String × Json))

mutual
/-- Modelled from the spec and the serde attributes in the source (lines
31-57): the externally-tagged JSON encoding of `TypeTag`.  On encode only
the canonical lowercase variant names are produced. -/
def encodeT : TypeTag → Json
  | .bool => .str "bool"
  | .u8 => .str "u8"
  | .u64 => .str "u64"
  | .u128 => .str "u128"
  | .address => .str "address"
  | .signer => .str "signer"
  | .vector t => .obj [("vector", encodeT t)]
  | .struct s => .obj [("struct", encodeS s)]
  | .u16 => .str "u16"
  | .u32 => .str "u32"
  | .u256 => .str "u256"

/-- Modelled from the spec and the serde attributes (lines 167-175): the
JSON encoding of `StructTag`, fields in declaration order; the parameter
list is emitted only under its canonical name `type_args`. -/
def encodeS : StructTag → Json
  | .mk a m n ps =>
      .obj [("address", .str (String.mk (addrChars a))), ("module", .str m),
        ("name", .str n), ("type_args", .arr (encodeL ps))]

/-- Encoding of a type-parameter list. -/
def encodeL : List TypeTag → List Json
  | [] => []
  | t :: ts => encodeT t :: encodeL ts
end

/-- Modelled from the spec: decoding of a serialized address: a non-empty
lowercase-hex string. -/
def decodeAddr (s : String) : Option Nat :=
  if s.data ≠ [] ∧ s.data.all isLowerHexChar then some (decodeHexNat s.data) else none

mutual
/-- Modelled from the spec and the serde attributes (lines 31-57): decoding
accepts each canonical lowercase variant name and its capitalized alias. -/
def decodeT : Json → Option TypeTag
  | .str w =>
      if w = "bool" ∨ w = "Bool" then some .bool
      else if w = "u8" ∨ w = "U8" then some .u8
      else if w = "u16" ∨ w = "U16" then some .u16
      else if w = "u32" ∨ w = "U32" then some .u32
      else if w = "u64" ∨ w = "U64" then some .u64
      else if w = "u128" ∨ w = "U128" then some .u128
      else if w = "u256" ∨ w = "U256" then some .u256
      else if w = "address" ∨ w = "Address" then some .address
      else if w = "signer" ∨ w = "Signer" then some .signer
      else none
  | .obj [(k, j)] =>
      if k = "vector" ∨ k = "Vector" then (decodeT j).map .vector
      else if k = "struct" ∨ k = "Struct" then (decodeS j).map .struct
      else none
  | _ => none

/-- Modelled from the spec and the serde attributes (line 173): the decoder
of `StructTag` accepts both the canonical field name `type_args` and its
alias `type_params` for the parameter list. -/
def decodeS : Json → Option StructTag
  | .obj [("address", .str as), ("module", .str m), ("name", .str n), (pk, .arr js)] =>
      if pk = "type_args" ∨ pk = "type_params" then
        match decodeAddr as, decodeL js with
        | some a, some ts => some (.mk a m n ts)
        | _, _ => none
      else none
  | _ => none

/-- Decoding of a list of encoded type tags. -/
def decodeL : List Json → Option (List TypeTag)
  | [] => some []
  | j :: js =>
      match decodeT j, decodeL js with
      | some t, some ts => some (t :: ts)
      | _, _ => none
end

mutual
/-- Specification-side check that an encoded `TypeTag` uses only the
canonical spelling: lowercase variant names as tags and keys. -/
def spellOkT : Json → Bool
  | .str w =>
      (w == "bool") || (w == "u8") || (w == "u16") || (w == "u32") || (w == "u64") ||
        (w == "u128") || (w == "u256") || (w == "address") || (w == "signer")
  | .obj [(k, j)] => ((k == "vector") && spellOkT j) || ((k == "struct") && spellOkS j)
  | _ => false

/-- Specification-side check that an encoded `StructTag` uses exactly the
canonical field names, `type_args` included. -/
def spellOkS : Json → Bool
  | .obj [(k1, .str _), (k2, .str _), (k3, .str _), (k4, .arr js)] =>
      (k1 == "address") && (k2 == "module") && (k3 == "name") && (k4 == "type_args") &&
        spellOkL js
  | _ => false

/-- Canonical-spelling check over a list of encoded tags. -/
def spellOkL : List Json → Bool
  | [] => true
  | j :: js => spellOkT j && spellOkL js
end

/-- Word characters of the modelled tokenizer: ASCII alphanumerics and the
underscore (identifiers and address literals are ASCII). -/
def isWordChar (c : Char) : Bool :=
  (48 ≤ c.toNat && c.toNat ≤ 57) || (65 ≤ c.toNat && c.toNat ≤ 90) ||
    (97 ≤ c.toNat && c.toNat ≤ 122) || c.toNat == 95

/-- ASCII letter predicate for the identifier validity check. -/
def isAsciiAlpha (c : Char) : Bool :=
  (65 ≤ c.toNat && c.toNat ≤ 90) || (97 ≤ c.toNat && c.toNat ≤ 122)

/-- A rendered type may validly be followed only by the end of the input, a
`,` or a `>` — the contexts in which the canonical renderer ever places a
type. -/
def boundaryOk : List Char → Bool
  | [] => true
  | c :: _ => c == ',' || c == '>'

/-- The remaining input must not begin with a word character (so the word
just taken is maximal). -/
def headNotWord : List Char → Bool
  | [] => true
  | c :: _ => !(isWordChar c)

/-- Take the maximal leading run of word characters. -/
def takeWord (cs : List Char) : List Char × List Char :=
  (cs.takeWhile isWordChar, cs.dropWhile isWordChar)

/-- Modelled from the spec: Move identifier validity (`identifier.rs` is not
among the sources): non-empty ASCII, a letter or underscore first, letters,
digits or underscores after, and not the bare wildcard `_`. -/
def validIdentChars (cs : List Char) : Bool :=
  match cs with
  | [] => false
  | c :: rest => (isAsciiAlpha c || c == '_') && rest.all isWordChar && cs ≠ ['_']

/-- Modelled from the spec (§4.2 `AddressLit`): a hex address literal with
an optional `0x` prefix; a non-hex word would be a named address, which the
`FromStr` resolution hook always rejects. -/
def parseAddrWord (w : List Char) : Option Nat :=
  if w.take 2 = ['0', 'x'] then
    if w.drop 2 ≠ [] ∧ (w.drop 2).all isLowerHexChar then some (decodeHexNat (w.drop 2))
    else none
  else
    if w ≠ [] ∧ w.all isLowerHexChar then some (decodeHexNat w)
    else none

/-- Modelled from the spec (§4.2 `Primitive`): the fixed keyword table. -/
def keywordPrim (w : List Char) : Option TypeTag :=
  if w = "bool".data then some .bool
  else if w = "u8".data then some .u8
  else if w = "u16".data then some .u16
  else if w = "u32".data then some .u32
  else if w = "u64".data then some .u64
  else if w = "u128".data then some .u128
  else if w = "u256".data then some .u256
  else if w = "address".data then some .address
  else if w = "signer".data then some .signer
  else none

mutual
/-- Modelled from the spec: the grammar parser of §4.2 (`parsing/types.rs`
is not among the sources) as a recursive descent over characters with a fuel
bound: a primitive keyword, `vector` `<` type `>`, or an address literal
followed by the struct suffix. -/
def parseTypeTag : Nat → List Char → Option (TypeTag × List Char)
  | 0, _ => none
  | fuel + 1, cs =>
      match takeWord cs with
      | (w, rest) =>
        if w = [] then none
        else
          match keywordPrim w with
          | some prim => some (prim, rest)
          | none =>
            if w = "vector".data then
              match rest with
              | '<' :: rest1 =>
                  match parseTypeTag fuel rest1 with
                  | some (t, rest2) =>
                      match rest2 with
                      | '>' :: rest3 => some (.vector t, rest3)
                      | _ => none
                  | none => none
              | _ => none
            else
              match parseAddrWord w with
              | some a =>
                  match parseStructAfterAddr fuel a rest with
                  | some (s, r) => some (.struct s, r)
                  | none => none
              | none => none

/-- Modelled from the spec (§4.2 `StructTag`): after the address literal,
`::` module `::` name and optionally `<` args `>`. -/
def parseStructAfterAddr : Nat → Nat → List Char → Option (StructTag × List Char)
  | 0, _, _ => none
  | _fuel + 1, a, rest =>
      match rest with
      | ':' :: ':' :: rest1 =>
          match takeWord rest1 with
          | (mw, rest2) =>
            if validIdentChars mw then
              match rest2 with
              | ':' :: ':' :: rest3 =>
                  match takeWord rest3 with
                  | (nw, rest4) =>
                    if validIdentChars nw then
                      match rest4 with
                      | '<' :: rest5 =>
                          match parseArgs _fuel rest5 with
                          | some (ts, rest6) =>
                              some (.mk a (String.mk mw) (String.mk nw) ts, rest6)
                          | none => none
                      | _ => some (.mk a (String.mk mw) (String.mk nw) [], rest4)
                    else none
              | _ => none
            else none
      | _ => none

/-- Modelled from the spec (§4.2): one or more comma-separated type
arguments terminated by `>`. -/
def parseArgs : Nat → List Char → Option (List TypeTag × List Char)
  | 0, _ => none
  | fuel + 1, cs =>
      match parseTypeTag fuel cs with
      | some (t, rest1) =>
          match rest1 with
          | '>' :: rest2 => some ([t], rest2)
          | ',' :: rest2 =>
              match parseArgs fuel rest2 with
              | some (ts, rest3) => some (t :: ts, rest3)
              | none => none
          | _ => none
      | none => none
end

/-- Modelled from the spec: `FromStr for TypeTag` (`language_storage.rs`
lines 159-165 delegating to the parsing module): parse the whole string as
a type tag. -/
def TypeTag.from_str (s : String) : Option TypeTag :=
  match parseTypeTag (s.data.length + 1) s.data with
  | some (t, []) => some t
  | _ => none

/-- Modelled from the spec: `FromStr for StructTag` (lines 288-294): the
whole string must be an address literal followed by the struct suffix. -/
def StructTag.from_str (s : String) : Option StructTag :=
  match takeWord s.data with
  | (w, rest) =>
    match parseAddrWord w with
    | some a =>
        match parseStructAfterAddr (s.data.length + 1) a rest with
        | some (st, []) => some st
        | _ => none
    | none => none

/-- Modelled from the spec: `FromStr for ModuleId` (lines 361-366): an
address literal, `::`, and a single identifier consuming the rest. -/
def ModuleId.from_str (s : String) : Option ModuleId :=
  match takeWord s.data with
  | (w, rest) =>
    match parseAddrWord w with
    | some a =>
        match rest with
        | ':' :: ':' :: rest1 =>
            match takeWord rest1 with
            | (nw, rest2) =>
              if validIdentChars nw && rest2 = [] then some (ModuleId.mk a (String.mk nw))
              else none
        | _ => none
    | none => none

mutual
/-- Validity of a `TypeTag` value: every address in range, every identifier
a valid Move identifier. -/
def validT : TypeTag → Bool
  | .vector t => validT t
  | .struct s => validS s
  | _ => true

/-- Validity of a `StructTag` value. -/
def validS : StructTag → Bool
  | .mk a m n ps =>
      decide (a < addrBound) && validIdentChars m.data && validIdentChars n.data && validL ps

/-- Validity of a list of type arguments. -/
def validL : List TypeTag → Bool
  | [] => true
  | t :: ts => validT t && validL ts
end

/-- Validity of a `ModuleId` value. -/
def validM (q : ModuleId) : Bool :=
  decide (q.address < addrBound) && validIdentChars q.name.data

mutual
/-- Fuel needed by `parseTypeTag` on the canonical rendering of `t`. -/
def fuelT : TypeTag → Nat
  | .vector t => 1 + fuelT t
  | .struct s => 1 + fuelS s
  | _ => 1

/-- Fuel needed by `parseStructAfterAddr` on the canonical suffix of `s`. -/
def fuelS : StructTag → Nat
  | .mk _ _ _ ps => 1 + fuelL ps

/-- Fuel needed by `parseArgs` on a canonical argument list. -/
def fuelL : List TypeTag → Nat
  | [] => 0
  | t :: ts => 1 + fuelT t + fuelL ts
end

-- ===== Theorems =====

theorem abstractSizeL_eq_sum (ps : List TypeTag) :
    abstractSizeL ps = (ps.map abstractSizeT).sum := by
  induction ps with
  | nil => rfl
  | cons t ts ih => rw [abstractSizeL, ih]; simp

theorem abstractSizeL_append (ps qs : List TypeTag) :
    abstractSizeL (ps ++ qs) = abstractSizeL ps + abstractSizeL qs := by
  induction ps with
  | nil => simp [abstractSizeL]
  | cons t ts ih =>
      simp only [List.cons_append, abstractSizeL, List.append_eq]
      rw [ih]
      omega

theorem abstractSizeT_pos (t : TypeTag) : 1 ≤ abstractSizeT t := by
  cases t <;> rw [abstractSizeT] <;>
    simp [TYPETAG_ENUM_ABSTRACT_SIZE, ENUM_BASE_ABSTRACT_SIZE, BOX_ABSTRACT_SIZE] <;>
    omega

/-- Claim C5: `abstract_size_for_gas_metering` equals the fixed base constant
`TYPETAG_ENUM_ABSTRACT_SIZE` (enum base + box size) plus zero for each bare
primitive, the recursive size of the inner type for `vector`, and — for
`struct` — the sum of the address size, module-name size, struct-name size
and the recursive sizes of all type arguments. -/
theorem claim_C5_abstract_size :
    (abstractSizeT .bool = TYPETAG_ENUM_ABSTRACT_SIZE + 0) ∧
    (abstractSizeT .u8 = TYPETAG_ENUM_ABSTRACT_SIZE + 0) ∧
    (abstractSizeT .u16 = TYPETAG_ENUM_ABSTRACT_SIZE + 0) ∧
    (abstractSizeT .u32 = TYPETAG_ENUM_ABSTRACT_SIZE + 0) ∧
    (abstractSizeT .u64 = TYPETAG_ENUM_ABSTRACT_SIZE + 0) ∧
    (abstractSizeT .u128 = TYPETAG_ENUM_ABSTRACT_SIZE + 0) ∧
    (abstractSizeT .u256 = TYPETAG_ENUM_ABSTRACT_SIZE + 0) ∧
    (abstractSizeT .address = TYPETAG_ENUM_ABSTRACT_SIZE + 0) ∧
    (abstractSizeT .signer = TYPETAG_ENUM_ABSTRACT_SIZE + 0) ∧
    (∀ t, abstractSizeT (.vector t) = TYPETAG_ENUM_ABSTRACT_SIZE + abstractSizeT t) ∧
    (∀ s, abstractSizeT (.struct s) = TYPETAG_ENUM_ABSTRACT_SIZE + abstractSizeS s) ∧
    (∀ a m n ps, abstractSizeS (.mk a m n ps) =
      addressAbstractSize + identAbstractSize m + identAbstractSize n +
        (ps.map abstractSizeT).sum) ∧
    TYPETAG_ENUM_ABSTRACT_SIZE = ENUM_BASE_ABSTRACT_SIZE + BOX_ABSTRACT_SIZE := by
  refine ⟨rfl, rfl, rfl, rfl, rfl, rfl, rfl, rfl, rfl, fun t => rfl, fun s => rfl,
    fun a m n ps => ?_, rfl⟩
  rw [abstractSizeS, abstractSizeL_eq_sum]

/-- Claim C6: the abstract size function is deterministic (it is a pure
function of the value) and monotone under nesting: wrapping in `vector` never
decreases the size, and appending one more type argument to a `StructTag`
strictly increases it, all other fields equal. -/
theorem claim_C6_size_monotone :
    (∀ t : TypeTag, abstractSizeT t = abstractSizeT t) ∧
    (∀ t : TypeTag, abstractSizeT t ≤ abstractSizeT (.vector t)) ∧
    (∀ a m n ps x, abstractSizeS (.mk a m n ps) < abstractSizeS (.mk a m n (ps ++ [x]))) := by
  refine ⟨fun t => rfl, fun t => ?_, fun a m n ps x => ?_⟩
  · rw [abstractSizeT]; omega
  · rw [abstractSizeS, abstractSizeS, abstractSizeL_append]
    have hx := abstractSizeT_pos x
    have : 1 ≤ abstractSizeL [x] := by rw [abstractSizeL, abstractSizeL]; omega
    omega

/-- Claim C2: the canonical rendering of
`StructTag{address: 0x1, module: "string", name: "String", type_params: []}`
with the `0x` prefix is exactly the golden literal: 64 zero-padded lowercase
hex digits, and no generic brackets for the empty argument list. -/
theorem claim_C2_golden_string :
    (StructTag.mk 1 "string" "String" []).to_canonical_string true =
      "0x0000000000000000000000000000000000000000000000000000000000000001::string::String" := by
  decide

theorem findAddressesT_structFree (t : TypeTag) :
    ∀ acc, structFreeT t = true → findAddressesT t acc = acc := by
  cases t with
  | vector inner =>
      intro acc h
      rw [structFreeT] at h
      rw [findAddressesT]
      exact findAddressesT_structFree inner acc h
  | struct s => intro acc h; simp [structFreeT] at h
  | bool => intro acc _; rfl
  | u8 => intro acc _; rfl
  | u16 => intro acc _; rfl
  | u32 => intro acc _; rfl
  | u64 => intro acc _; rfl
  | u128 => intro acc _; rfl
  | u256 => intro acc _; rfl
  | address => intro acc _; rfl
  | signer => intro acc _; rfl

/-- Claim C10: a `TypeTag` built only from non-struct variants contributes no
account address — `all_addresses` is empty; only a `Struct` variant ever
inserts an address. -/
theorem claim_C10_no_struct_no_address (t : TypeTag) (h : structFreeT t = true) :
    t.all_addresses = [] := by
  rw [TypeTag.all_addresses]
  exact findAddressesT_structFree t [] h

/-- Witness for C10 at the concrete input `vector<address>`: the primitive
`address` type contributes no account address. -/
theorem claim_C10_witness :
    structFreeT (.vector .address) = true ∧ (TypeTag.vector .address).all_addresses = [] :=
  ⟨by decide, claim_C10_no_struct_no_address (.vector .address) (by decide)⟩

mutual
theorem findAddressesT_eq_foldl (t : TypeTag) :
    ∀ acc, findAddressesT t acc = (preAddrsT t).foldl insertIdx acc := by
  cases t with
  | vector inner =>
      intro acc
      rw [findAddressesT, preAddrsT]
      exact findAddressesT_eq_foldl inner acc
  | struct s =>
      intro acc
      rw [findAddressesT, preAddrsT]
      exact allAddressesInternalS_eq_foldl s acc
  | bool => intro acc; rfl
  | u8 => intro acc; rfl
  | u16 => intro acc; rfl
  | u32 => intro acc; rfl
  | u64 => intro acc; rfl
  | u128 => intro acc; rfl
  | u256 => intro acc; rfl
  | address => intro acc; rfl
  | signer => intro acc; rfl

theorem allAddressesInternalS_eq_foldl (s : StructTag) :
    ∀ acc, allAddressesInternalS s acc = (preAddrsS s).foldl insertIdx acc := by
  cases s with
  | mk a m n ps =>
      intro acc
      rw [allAddressesInternalS, preAddrsS, List.foldl_cons]
      exact findAddressesL_eq_foldl ps (insertIdx acc a)

theorem findAddressesL_eq_foldl (ps : List TypeTag) :
    ∀ acc, findAddressesL ps acc = (preAddrsL ps).foldl insertIdx acc := by
  cases ps with
  | nil => intro acc; rfl
  | cons t ts =>
      intro acc
      rw [findAddressesL, preAddrsL, List.foldl_append, ← findAddressesT_eq_foldl t acc]
      exact findAddressesL_eq_foldl ts (findAddressesT t acc)
end

theorem insertIdx_nodup {l : List Nat} (h : l.Nodup) (a : Nat) : (insertIdx l a).Nodup := by
  rw [insertIdx]
  by_cases hm : a ∈ l
  · simpa [hm] using h
  · rw [if_neg hm, List.nodup_append]
    exact ⟨h, List.nodup_singleton a, by simpa using hm⟩

theorem foldl_insertIdx_nodup (l : List Nat) :
    ∀ acc : List Nat, acc.Nodup → (l.foldl insertIdx acc).Nodup := by
  induction l with
  | nil => intro acc h; simpa using h
  | cons x xs ih =>
      intro acc h
      rw [List.foldl_cons]
      exact ih _ (insertIdx_nodup h x)

/-- Claim C7: `all_addresses` on a `StructTag` is the first-seen
deduplication of the pre-order address listing (own address first, then each
type argument's addresses recursively), so each address appears exactly once
at its first occurrence; in particular the nested example yields
`[0xa, 0xb]`, and a duplicate across siblings appears only once. -/
theorem claim_C7_all_addresses :
    (∀ s : StructTag, s.all_addresses = firstSeenDedup (preAddrsS s)) ∧
    (∀ s : StructTag, s.all_addresses.Nodup) ∧
    (StructTag.mk 0xa "m" "n" [.struct (.mk 0xb "m2" "n2" [])]).all_addresses = [0xa, 0xb] ∧
    (StructTag.mk 0xa "m" "n"
      [.struct (.mk 0xb "m2" "n2" []), .struct (.mk 0xa "m3" "n3" [])]).all_addresses =
        [0xa, 0xb] := by
  refine ⟨fun s => ?_, fun s => ?_, by decide, by decide⟩
  · rw [StructTag.all_addresses, firstSeenDedup]
    exact allAddressesInternalS_eq_foldl s []
  · rw [StructTag.all_addresses, allAddressesInternalS_eq_foldl s []]
    exact foldl_insertIdx_nodup _ [] (by simp)

theorem strMk_append (a b : List Char) :
    String.mk (a ++ b) = String.mk a ++ String.mk b := rfl

theorem intercalate_go_eq (s : String) :
    ∀ (as : List String) (acc : String),
      String.intercalate.go acc s as = acc ++ joinTail s as := by
  intro as
  induction as with
  | nil => intro acc; simp [String.intercalate.go, joinTail]
  | cons a as ih =>
      intro acc
      rw [String.intercalate.go, ih]
      simp [joinTail, String.append_assoc]

theorem intercalate_eq_joinTail (s : String) (a : String) (as : List String) :
    String.intercalate s (a :: as) = a ++ joinTail s as := by
  rw [String.intercalate]
  exact intercalate_go_eq s as a

theorem canonArgsTail_joinTail (wp : Bool) (ts : List TypeTag) :
    String.mk (canonArgsTail wp ts) =
      joinTail "," (ts.map (fun t => t.to_canonical_string wp)) := by
  induction ts with
  | nil => rfl
  | cons t ts ih =>
      rw [canonArgsTail, List.map_cons, joinTail, strMk_append, strMk_append, ih]
      rfl

theorem canonArgs_intercalate (wp : Bool) (ps : List TypeTag) :
    String.mk (canonArgs wp ps) =
      (if ps.isEmpty then "" else
        "<" ++ String.intercalate "," (ps.map (fun t => t.to_canonical_string wp)) ++ ">") := by
  cases ps with
  | nil => rfl
  | cons t ts =>
      rw [canonArgs, List.isEmpty_cons, if_neg (by decide), List.map_cons,
        intercalate_eq_joinTail, strMk_append, strMk_append, strMk_append,
        canonArgsTail_joinTail]
      rw [String.append_assoc (String.mk "<".data)]
      rfl

theorem leDigits_length : ∀ (w a : Nat), (leDigits w a).length = w := by
  intro w
  induction w with
  | zero => intro a; rfl
  | succ w ih => intro a; rw [leDigits, List.length_cons, ih]

theorem leDigits_lt : ∀ (w a : Nat), ∀ d ∈ leDigits w a, d < 16 := by
  intro w
  induction w with
  | zero => intro a d hd; simp [leDigits] at hd
  | succ w ih =>
      intro a d hd
      rw [leDigits, List.mem_cons] at hd
      rcases hd with h | h
      · subst h; exact Nat.mod_lt _ (by norm_num)
      · exact ih _ d h

theorem hexDigitChar_lowHex {d : Nat} (h : d < 16) :
    isLowerHexChar (hexDigitChar d) = true := by
  interval_cases d <;> decide

theorem hexCharVal_hexDigitChar {d : Nat} (h : d < 16) :
    hexCharVal (hexDigitChar d) = d := by
  interval_cases d <;> decide

theorem addrChars_length (a : Nat) : (addrChars a).length = 64 := by
  rw [addrChars, List.length_map, List.length_reverse, leDigits_length]

theorem addrChars_lowHex (a : Nat) : ∀ c ∈ addrChars a, isLowerHexChar c = true := by
  intro c hc
  rw [addrChars, List.mem_map] at hc
  obtain ⟨d, hd, rfl⟩ := hc
  rw [List.mem_reverse] at hd
  exact hexDigitChar_lowHex (leDigits_lt 64 a d hd)

theorem foldl_hex_leDigits :
    ∀ (w a acc : Nat),
      ((leDigits w a).reverse.map hexDigitChar).foldl (fun n c => n * 16 + hexCharVal c) acc =
        acc * 16 ^ w + a % 16 ^ w := by
  intro w
  induction w with
  | zero => intro a acc; simp [leDigits, Nat.mod_one]
  | succ w ih =>
      intro a acc
      rw [leDigits, List.reverse_cons, List.map_append, List.foldl_append, ih]
      simp only [List.map_cons, List.map_nil, List.foldl_cons, List.foldl_nil]
      rw [hexCharVal_hexDigitChar (Nat.mod_lt _ (by norm_num))]
      have h2 : a % 16 ^ (w + 1) = a % 16 + 16 * (a / 16 % 16 ^ w) := by
        rw [pow_succ']
        exact Nat.mod_mul
      rw [h2, pow_succ]
      ring

theorem decodeHexNat_addrChars (a : Nat) : decodeHexNat (addrChars a) = a % addrBound := by
  rw [decodeHexNat, addrChars, foldl_hex_leDigits]
  simp [addrBound]

/-- Claim C1: the canonical rendering maps each primitive to its fixed
lowercase keyword, renders `vector<t>` around the inner canonical form,
and renders a struct as `address::module::name` followed — exactly when the
argument list is non-empty — by `<` + the canonical arguments joined by
commas with no space + `>`; the address part is lowercase zero-padded
64-digit hex whose value is the address, with a `0x` prefix exactly when
`with_prefix` is set. -/
theorem claim_C1_canonical_rendering :
    (∀ wp, TypeTag.to_canonical_string .bool wp = "bool") ∧
    (∀ wp, TypeTag.to_canonical_string .u8 wp = "u8") ∧
    (∀ wp, TypeTag.to_canonical_string .u16 wp = "u16") ∧
    (∀ wp, TypeTag.to_canonical_string .u32 wp = "u32") ∧
    (∀ wp, TypeTag.to_canonical_string .u64 wp = "u64") ∧
    (∀ wp, TypeTag.to_canonical_string .u128 wp = "u128") ∧
    (∀ wp, TypeTag.to_canonical_string .u256 wp = "u256") ∧
    (∀ wp, TypeTag.to_canonical_string .address wp = "address") ∧
    (∀ wp, TypeTag.to_canonical_string .signer wp = "signer") ∧
    (∀ wp t, TypeTag.to_canonical_string (.vector t) wp =
      "vector<" ++ t.to_canonical_string wp ++ ">") ∧
    (∀ wp s, TypeTag.to_canonical_string (.struct s) wp = s.to_canonical_string wp) ∧
    (∀ wp a m n ps, StructTag.to_canonical_string (.mk a m n ps) wp =
      addrCanonicalString wp a ++ "::" ++ m ++ "::" ++ n ++
        (if ps.isEmpty then "" else
          "<" ++ String.intercalate "," (ps.map (fun t => t.to_canonical_string wp)) ++ ">")) ∧
    (∀ a, addrCanonicalString true a = "0x" ++ addrCanonicalString false a) ∧
    (∀ a, (addrCanonicalString false a).length = 64) ∧
    (∀ a, (addrCanonicalString false a).data.all isLowerHexChar = true) ∧
    (∀ a, decodeHexNat (addrCanonicalString false a).data = a % addrBound) := by
  refine ⟨fun wp => rfl, fun wp => rfl, fun wp => rfl, fun wp => rfl, fun wp => rfl,
    fun wp => rfl, fun wp => rfl, fun wp => rfl, fun wp => rfl, fun wp t => rfl,
    fun wp s => rfl, fun wp a m n ps => ?_, fun a => rfl, fun a => ?_, fun a => ?_,
    fun a => ?_⟩
  · rw [← canonArgs_intercalate]
    rfl
  · show (addrChars a).length = 64
    exact addrChars_length a
  · rw [List.all_eq_true]
    exact fun c hc => addrChars_lowHex a c hc
  · exact decodeHexNat_addrChars a

theorem head?_dropWhile {α : Type} (p : α → Bool) :
    ∀ (l : List α) (c : α), (l.dropWhile p).head? = some c → p c = false := by
  intro l
  induction l with
  | nil => intro c h; simp at h
  | cons x xs ih =>
      intro c h
      rw [List.dropWhile_cons] at h
      by_cases hp : p x
      · rw [if_pos hp] at h
        exact ih c h
      · rw [if_neg hp] at h
        simp at h
        subst h
        simpa using hp

theorem decodeHexNat_dropWhile_zero :
    ∀ l : List Char, decodeHexNat (l.dropWhile (fun c => c = '0')) = decodeHexNat l := by
  intro l
  induction l with
  | nil => rfl
  | cons x xs ih =>
      rw [List.dropWhile_cons]
      by_cases hx : x = '0'
      · rw [if_pos (by simp [hx]), ih]
        subst hx
        rw [decodeHexNat, decodeHexNat, List.foldl_cons]
        have hz : (0 : Nat) * 16 + hexCharVal '0' = 0 := by decide
        rw [hz]
      · rw [if_neg (by simp [hx])]

theorem decodeHexNat_shortStrLossless (a : Nat) :
    decodeHexNat (shortStrLossless a) = a % addrBound := by
  rw [shortStrLossless]
  by_cases h : (addrChars a).dropWhile (fun c => c = '0') = []
  · rw [if_pos h]
    have h0 : decodeHexNat (addrChars a) = 0 := by
      rw [← decodeHexNat_dropWhile_zero, h]
      rfl
    rw [← decodeHexNat_addrChars a, h0]
    rfl
  · rw [if_neg h, decodeHexNat_dropWhile_zero]
    exact decodeHexNat_addrChars a

theorem displayArgsTail_joinTail (ts : List TypeTag) :
    String.mk (displayArgsTail ts) = joinTail ", " (ts.map (fun t => t.display)) := by
  induction ts with
  | nil => rfl
  | cons t ts ih =>
      rw [displayArgsTail, List.map_cons, joinTail, strMk_append, strMk_append, ih]
      rfl

theorem displayArgs_intercalate (ps : List TypeTag) :
    String.mk (displayArgs ps) =
      (if ps.isEmpty then "" else
        "<" ++ String.intercalate ", " (ps.map (fun t => t.display)) ++ ">") := by
  cases ps with
  | nil => rfl
  | cons t ts =>
      rw [displayArgs, List.isEmpty_cons, if_neg (by decide), List.map_cons,
        intercalate_eq_joinTail, strMk_append, strMk_append, strMk_append,
        displayArgsTail_joinTail]
      rw [String.append_assoc (String.mk "<".data)]
      rfl

/-- Counterexample for claim C9: `ModuleId`'s `Display` does not use a short
unpadded address — at `ModuleId{address: 0x1, name: "foo"}` it renders the
full zero-padded 64-digit form (without `0x`), not the short rendering
`0x1::foo`. -/
theorem claim_C9_counterexample :
    (ModuleId.mk 1 "foo").display =
      "0000000000000000000000000000000000000000000000000000000000000001::foo" ∧
    (ModuleId.mk 1 "foo").display ≠
      "0x" ++ String.mk (shortStrLossless 1) ++ "::" ++ "foo" := by
  constructor
  · decide
  · decide

/-- Claim C9 (amended): the unstable `Display` rendering of `TypeTag` and
`StructTag` uses `0x`-prefixed short addresses (leading zeros trimmed, same
hex value) and a space after commas in generic argument lists — distinct
from the canonical form — while `ModuleId`'s `Display` instead delegates to
the canonical, zero-padded rendering without the `0x` prefix. -/
theorem claim_C9_display_rendering :
    (∀ a m n ps, StructTag.display (.mk a m n ps) =
      "0x" ++ String.mk (shortStrLossless a) ++ "::" ++ m ++ "::" ++ n ++
        (if ps.isEmpty then "" else
          "<" ++ String.intercalate ", " (ps.map (fun t => t.display)) ++ ">")) ∧
    (∀ t, TypeTag.display (.vector t) = "vector<" ++ t.display ++ ">") ∧
    (∀ s, TypeTag.display (.struct s) = s.display) ∧
    (TypeTag.display .bool = "bool" ∧ TypeTag.display .u8 = "u8" ∧
      TypeTag.display .u16 = "u16" ∧ TypeTag.display .u32 = "u32" ∧
      TypeTag.display .u64 = "u64" ∧ TypeTag.display .u128 = "u128" ∧
      TypeTag.display .u256 = "u256" ∧ TypeTag.display .address = "address" ∧
      TypeTag.display .signer = "signer") ∧
    (∀ q : ModuleId, q.display = q.to_canonical_string false) ∧
    (∀ a c, (shortStrLossless a).head? = some c → c ≠ '0' ∨ shortStrLossless a = ['0']) ∧
    (∀ a, decodeHexNat (shortStrLossless a) = a % addrBound) := by
  refine ⟨fun a m n ps => ?_, fun t => rfl, fun s => rfl,
    ⟨rfl, rfl, rfl, rfl, rfl, rfl, rfl, rfl, rfl⟩, fun q => rfl,
    fun a c hc => ?_, fun a => decodeHexNat_shortStrLossless a⟩
  · rw [← displayArgs_intercalate]
    rfl
  · rw [shortStrLossless] at hc ⊢
    by_cases h : (addrChars a).dropWhile (fun c => c = '0') = []
    · right; rw [if_pos h]
    · left
      rw [if_neg h] at hc
      have := head?_dropWhile (fun c => c = '0') (addrChars a) c hc
      simpa using this

/-- Witness for the amended C9 at a concrete input: the short address of the
zero address is the single digit `0`. -/
theorem claim_C9_witness :
    (shortStrLossless 0).head? = some '0' ∧
    ('0' ≠ '0' ∨ shortStrLossless 0 = ['0']) :=
  ⟨by decide, claim_C9_display_rendering.2.2.2.2.2.1 0 '0' (by decide)⟩

theorem natCompare_trans {x y z : Nat} (h1 : compare x y = .lt)
    (h2 : compare y z = .lt) : compare x z = .lt := by
  rw [Nat.compare_eq_lt] at h1 h2 ⊢
  omega

theorem cmpChar_eq_iff : ∀ a b : Char, cmpChar a b = .eq ↔ a = b := by
  intro a b
  rw [cmpChar, Nat.compare_eq_eq]
  constructor
  · intro h
    rw [← Char.ofNat_toNat a, ← Char.ofNat_toNat b, h]
  · intro h
    rw [h]

theorem cmpChar_trans {a b d : Char} (h1 : cmpChar a b = .lt) (h2 : cmpChar b d = .lt) :
    cmpChar a d = .lt :=
  natCompare_trans h1 h2

theorem cmpList_eq_iff {α : Type} {c : α → α → Ordering}
    (hc : ∀ x y, c x y = .eq ↔ x = y) :
    ∀ l1 l2 : List α, cmpList c l1 l2 = .eq ↔ l1 = l2 := by
  intro l1
  induction l1 with
  | nil =>
      intro l2
      cases l2 <;> simp [cmpList]
  | cons a as ih =>
      intro l2
      cases l2 with
      | nil => simp [cmpList]
      | cons b bs =>
          rw [cmpList, Ordering.then_eq_eq, hc, ih, List.cons.injEq]

/-- Transitivity of a lexicographic `then`-combination whose head comparator
decides equality: the core step shared by all the derived orderings. -/
theorem keyed_then_trans {α : Type} {k : α → α → Ordering} {x y z : α}
    (hkeq : ∀ u v, k u v = .eq ↔ u = v)
    (hktr : k x y = .lt → k y z = .lt → k x z = .lt)
    {r12 r23 r13 : Ordering}
    (hr : r12 = .lt → r23 = .lt → r13 = .lt)
    (h1 : (k x y).then r12 = .lt) (h2 : (k y z).then r23 = .lt) :
    (k x z).then r13 = .lt := by
  rw [Ordering.then_eq_lt] at h1 h2 ⊢
  rcases h1 with h1 | ⟨h1e, h1r⟩
  · rcases h2 with h2 | ⟨h2e, h2r⟩
    · exact .inl (hktr h1 h2)
    · rw [hkeq] at h2e
      subst h2e
      exact .inl h1
  · rw [hkeq] at h1e
    subst h1e
    rcases h2 with h2 | ⟨h2e, h2r⟩
    · exact .inl h2
    · rw [hkeq] at h2e
      subst h2e
      exact .inr ⟨(hkeq x x).2 rfl, hr h1r h2r⟩

theorem cmpList_trans {α : Type} {c : α → α → Ordering}
    (hc : ∀ x y, c x y = .eq ↔ x = y)
    (ht : ∀ x y z, c x y = .lt → c y z = .lt → c x z = .lt) :
    ∀ l1 l2 l3 : List α,
      cmpList c l1 l2 = .lt → cmpList c l2 l3 = .lt → cmpList c l1 l3 = .lt := by
  intro l1
  induction l1 with
  | nil =>
      intro l2 l3 h1 h2
      cases l2 with
      | nil => simp [cmpList] at h1
      | cons y ys =>
          cases l3 with
          | nil => simp [cmpList] at h2
          | cons z zs => simp [cmpList]
  | cons x xs ih =>
      intro l2 l3 h1 h2
      cases l2 with
      | nil => simp [cmpList] at h1
      | cons y ys =>
          cases l3 with
          | nil => simp [cmpList] at h2
          | cons z zs =>
              rw [cmpList] at h1 h2 ⊢
              exact keyed_then_trans hc (ht x y z) (ih ys zs) h1 h2

theorem cmpStr_eq_iff : ∀ a b : String, cmpStr a b = .eq ↔ a = b := by
  intro a b
  rw [cmpStr, cmpList_eq_iff cmpChar_eq_iff]
  exact ⟨String.ext, fun h => by rw [h]⟩

theorem cmpStr_trans {a b d : String} (h1 : cmpStr a b = .lt) (h2 : cmpStr b d = .lt) :
    cmpStr a d = .lt :=
  cmpList_trans cmpChar_eq_iff (fun _ _ _ hx hy => cmpChar_trans hx hy) _ _ _ h1 h2

mutual
theorem cmpT_eq_iff (a b : TypeTag) : cmpT a b = .eq ↔ a = b := by
  cases a <;> cases b <;>
    first
    | (rw [cmpT, cmpT_eq_iff]
       simp)
    | (rw [cmpT, cmpS_eq_iff]
       simp)
    | (simp [cmpT, tagIdx, Nat.compare_eq_eq])

theorem cmpS_eq_iff (a b : StructTag) : cmpS a b = .eq ↔ a = b := by
  cases a with
  | mk a1 m1 n1 p1 =>
      cases b with
      | mk a2 m2 n2 p2 =>
          rw [cmpS, Ordering.then_eq_eq, Ordering.then_eq_eq, Ordering.then_eq_eq,
            Nat.compare_eq_eq, cmpStr_eq_iff, cmpStr_eq_iff, cmpTL_eq_iff,
            StructTag.mk.injEq]

theorem cmpTL_eq_iff (a b : List TypeTag) : cmpTL a b = .eq ↔ a = b := by
  cases a with
  | nil => cases b <;> simp [cmpTL]
  | cons x xs =>
      cases b with
      | nil => simp [cmpTL]
      | cons y ys =>
          rw [cmpTL, Ordering.then_eq_eq, cmpT_eq_iff, cmpTL_eq_iff, List.cons.injEq]
end

theorem cmpT_decomp (a b : TypeTag) :
    cmpT a b = (compare (tagIdx a) (tagIdx b)).then (cmpInnerT a b) := by
  cases a <;> cases b <;> rfl

mutual
theorem cmpT_trans (a b d : TypeTag) :
    cmpT a b = .lt → cmpT b d = .lt → cmpT a d = .lt := by
  intro h1 h2
  rw [cmpT_decomp] at h1 h2 ⊢
  rw [Ordering.then_eq_lt] at h1 h2 ⊢
  rcases h1 with h1 | ⟨h1e, h1i⟩
  · rw [Nat.compare_eq_lt] at h1
    rcases h2 with h2 | ⟨h2e, h2i⟩
    · rw [Nat.compare_eq_lt] at h2
      refine .inl ?_
      rw [Nat.compare_eq_lt]
      omega
    · rw [Nat.compare_eq_eq] at h2e
      refine .inl ?_
      rw [Nat.compare_eq_lt]
      omega
  · rw [Nat.compare_eq_eq] at h1e
    rcases h2 with h2 | ⟨h2e, h2i⟩
    · rw [Nat.compare_eq_lt] at h2
      refine .inl ?_
      rw [Nat.compare_eq_lt]
      omega
    · rw [Nat.compare_eq_eq] at h2e
      refine .inr ⟨by rw [Nat.compare_eq_eq]; omega, ?_⟩
      cases a <;> cases b <;> simp [tagIdx] at h1e <;>
        cases d <;> simp [tagIdx] at h2e <;>
        first
        | (rw [cmpInnerT] at h1i h2i ⊢
           first
           | exact cmpT_trans _ _ _ h1i h2i
           | exact cmpS_trans _ _ _ h1i h2i)
        | simp [cmpInnerT] at h1i

theorem cmpS_trans (a b d : StructTag) :
    cmpS a b = .lt → cmpS b d = .lt → cmpS a d = .lt := by
  cases a with
  | mk a1 m1 n1 p1 =>
      cases b with
      | mk a2 m2 n2 p2 =>
          cases d with
          | mk a3 m3 n3 p3 =>
              intro h1 h2
              rw [cmpS] at h1 h2 ⊢
              refine keyed_then_trans (fun u v => Nat.compare_eq_eq)
                (fun hx hy => natCompare_trans hx hy) ?_ h1 h2
              refine keyed_then_trans cmpStr_eq_iff
                (fun hx hy => cmpStr_trans hx hy) ?_
              refine keyed_then_trans cmpStr_eq_iff
                (fun hx hy => cmpStr_trans hx hy) ?_
              exact cmpTL_trans p1 p2 p3

theorem cmpTL_trans (a b d : List TypeTag) :
    cmpTL a b = .lt → cmpTL b d = .lt → cmpTL a d = .lt := by
  cases a with
  | nil =>
      intro h1 h2
      cases b with
      | nil => simp [cmpTL] at h1
      | cons y ys =>
          cases d with
          | nil => simp [cmpTL] at h2
          | cons z zs => simp [cmpTL]
  | cons x xs =>
      intro h1 h2
      cases b with
      | nil => simp [cmpTL] at h1
      | cons y ys =>
          cases d with
          | nil => simp [cmpTL] at h2
          | cons z zs =>
              rw [cmpTL] at h1 h2 ⊢
              exact keyed_then_trans cmpT_eq_iff (cmpT_trans x y z)
                (cmpTL_trans xs ys zs) h1 h2
end

theorem trichotomy_of_eq_iff {α : Type} {c : α → α → Ordering}
    (h : ∀ x y, c x y = .eq ↔ x = y) (a b : α) :
    (c a b = .lt ∧ a ≠ b ∧ c a b ≠ .gt) ∨
    (a = b ∧ c a b ≠ .lt ∧ c a b ≠ .gt) ∨
    (c a b = .gt ∧ a ≠ b ∧ c a b ≠ .lt) := by
  cases hc : c a b with
  | lt =>
      refine .inl ⟨rfl, fun he => ?_, by simp [hc]⟩
      rw [← h] at he
      rw [he] at hc
      cases hc
  | eq => exact .inr (.inl ⟨(h a b).1 hc, by simp [hc], by simp [hc]⟩)
  | gt =>
      refine .inr (.inr ⟨rfl, fun he => ?_, by simp [hc]⟩)
      rw [← h] at he
      rw [he] at hc
      cases hc

theorem cmpM_eq_iff : ∀ a b : ModuleId, cmpM a b = .eq ↔ a = b := by
  intro a b
  cases a with
  | mk x1 y1 =>
      cases b with
      | mk x2 y2 =>
          rw [cmpM]
          rw [Ordering.then_eq_eq, Nat.compare_eq_eq, cmpStr_eq_iff, ModuleId.mk.injEq]

theorem cmpM_trans (a b d : ModuleId) :
    cmpM a b = .lt → cmpM b d = .lt → cmpM a d = .lt := by
  intro h1 h2
  rw [cmpM] at h1 h2 ⊢
  exact keyed_then_trans (fun u v => Nat.compare_eq_eq)
    (fun hx hy => natCompare_trans hx hy)
    (fun hx hy => cmpStr_trans hx hy) h1 h2

/-- Claim C4: the derived orderings on `TypeTag`, `StructTag` and `ModuleId`
are total orders consistent with structural equality — trichotomy (exactly
one of `lt`, equality, `gt`), transitivity, `a = b → cmp a b = eq`, and
equal values hash equally; `TypeTag` variants compare by declaration order
`Bool < U8 < U64 < U128 < Address < Signer < Vector < Struct < U16 < U32 <
U256`, with structural comparison within the `Vector` and `Struct`
variants. -/
theorem claim_C4_total_order :
    (∀ a b : TypeTag, (cmpT a b = .lt ∧ a ≠ b ∧ cmpT a b ≠ .gt) ∨
      (a = b ∧ cmpT a b ≠ .lt ∧ cmpT a b ≠ .gt) ∨
      (cmpT a b = .gt ∧ a ≠ b ∧ cmpT a b ≠ .lt)) ∧
    (∀ a b d : TypeTag, cmpT a b = .lt → cmpT b d = .lt → cmpT a d = .lt) ∧
    (∀ a b : TypeTag, a = b → cmpT a b = .eq) ∧
    (∀ a b : TypeTag, a = b → hashT a = hashT b) ∧
    (∀ a b : TypeTag, tagIdx a < tagIdx b → cmpT a b = .lt) ∧
    (tagIdx .bool = 0 ∧ tagIdx .u8 = 1 ∧ tagIdx .u64 = 2 ∧ tagIdx .u128 = 3 ∧
      tagIdx .address = 4 ∧ tagIdx .signer = 5 ∧ (∀ t, tagIdx (.vector t) = 6) ∧
      (∀ s, tagIdx (.struct s) = 7) ∧ tagIdx .u16 = 8 ∧ tagIdx .u32 = 9 ∧
      tagIdx .u256 = 10) ∧
    (∀ x y, cmpT (.vector x) (.vector y) = cmpT x y) ∧
    (∀ x y, cmpT (.struct x) (.struct y) = cmpS x y) ∧
    (∀ a b : StructTag, (cmpS a b = .lt ∧ a ≠ b ∧ cmpS a b ≠ .gt) ∨
      (a = b ∧ cmpS a b ≠ .lt ∧ cmpS a b ≠ .gt) ∨
      (cmpS a b = .gt ∧ a ≠ b ∧ cmpS a b ≠ .lt)) ∧
    (∀ a b d : StructTag, cmpS a b = .lt → cmpS b d = .lt → cmpS a d = .lt) ∧
    (∀ a b : StructTag, a = b → cmpS a b = .eq) ∧
    (∀ a b : StructTag, a = b → hashS a = hashS b) ∧
    (∀ a b : ModuleId, (cmpM a b = .lt ∧ a ≠ b ∧ cmpM a b ≠ .gt) ∨
      (a = b ∧ cmpM a b ≠ .lt ∧ cmpM a b ≠ .gt) ∨
      (cmpM a b = .gt ∧ a ≠ b ∧ cmpM a b ≠ .lt)) ∧
    (∀ a b d : ModuleId, cmpM a b = .lt → cmpM b d = .lt → cmpM a d = .lt) ∧
    (∀ a b : ModuleId, a = b → cmpM a b = .eq) ∧
    (∀ a b : ModuleId, a = b → hashM a = hashM b) := by
  refine ⟨trichotomy_of_eq_iff cmpT_eq_iff,
    cmpT_trans,
    fun a b h => (cmpT_eq_iff a b).2 h,
    fun a b h => by rw [h],
    fun a b h => ?_,
    ⟨rfl, rfl, rfl, rfl, rfl, rfl, fun t => rfl, fun s => rfl, rfl, rfl, rfl⟩,
    fun x y => rfl,
    fun x y => rfl,
    trichotomy_of_eq_iff cmpS_eq_iff,
    cmpS_trans,
    fun a b h => (cmpS_eq_iff a b).2 h,
    fun a b h => by rw [h],
    trichotomy_of_eq_iff cmpM_eq_iff,
    cmpM_trans,
    fun a b h => (cmpM_eq_iff a b).2 h,
    fun a b h => by rw [h]⟩
  rw [cmpT_decomp, Ordering.then_eq_lt]
  exact .inl (Nat.compare_eq_lt.2 h)

/-- Witness for C4 at concrete inputs: the declaration-order chain
`Signer < Vector<bool> < Struct(...) < U16` is transitive down to
`Signer < U16`. -/
theorem claim_C4_witness :
    cmpT .signer (.vector .bool) = .lt ∧
    cmpT (.vector .bool) .u16 = .lt ∧
    cmpT .signer .u16 = .lt :=
  ⟨by decide, by decide,
    claim_C4_total_order.2.1 .signer (.vector .bool) .u16 (by decide) (by decide)⟩

mutual
theorem spellOkT_encodeT (t : TypeTag) : spellOkT (encodeT t) = true := by
  cases t with
  | vector x =>
      rw [encodeT]
      simp [spellOkT, spellOkT_encodeT x]
  | struct s =>
      rw [encodeT]
      simp [spellOkT, spellOkS_encodeS s]
  | bool => decide
  | u8 => decide
  | u16 => decide
  | u32 => decide
  | u64 => decide
  | u128 => decide
  | u256 => decide
  | address => decide
  | signer => decide

theorem spellOkS_encodeS (s : StructTag) : spellOkS (encodeS s) = true := by
  cases s with
  | mk a m n ps =>
      rw [encodeS]
      simp [spellOkS, spellOkL_encodeL ps]

theorem spellOkL_encodeL (ps : List TypeTag) : spellOkL (encodeL ps) = true := by
  cases ps with
  | nil => rfl
  | cons t ts =>
      rw [encodeL]
      simp [spellOkL, spellOkT_encodeT t, spellOkL_encodeL ts]
end

/-- Claim C8: decoding a serialized `StructTag` whose parameter field is
spelled `type_args` and one spelled `type_params` produce identical values;
decoding each capitalized variant alias (`"Bool"`, `"Vector"`, ...) yields
the same result as the lowercase spelling; and every encoded value uses only
the canonical spelling (lowercase variant names, field `type_args`). -/
theorem claim_C8_serde_aliases :
    (∀ as m n pj,
      decodeS (.obj [("address", .str as), ("module", .str m), ("name", .str n),
        ("type_args", .arr pj)]) =
      decodeS (.obj [("address", .str as), ("module", .str m), ("name", .str n),
        ("type_params", .arr pj)])) ∧
    (decodeT (.str "bool") = some .bool ∧ decodeT (.str "Bool") = some .bool) ∧
    (decodeT (.str "u8") = some .u8 ∧ decodeT (.str "U8") = some .u8) ∧
    (decodeT (.str "u16") = some .u16 ∧ decodeT (.str "U16") = some .u16) ∧
    (decodeT (.str "u32") = some .u32 ∧ decodeT (.str "U32") = some .u32) ∧
    (decodeT (.str "u64") = some .u64 ∧ decodeT (.str "U64") = some .u64) ∧
    (decodeT (.str "u128") = some .u128 ∧ decodeT (.str "U128") = some .u128) ∧
    (decodeT (.str "u256") = some .u256 ∧ decodeT (.str "U256") = some .u256) ∧
    (decodeT (.str "address") = some .address ∧ decodeT (.str "Address") = some .address) ∧
    (decodeT (.str "signer") = some .signer ∧ decodeT (.str "Signer") = some .signer) ∧
    (∀ j, decodeT (.obj [("vector", j)]) = decodeT (.obj [("Vector", j)])) ∧
    (∀ j, decodeT (.obj [("struct", j)]) = decodeT (.obj [("Struct", j)])) ∧
    (∀ t, spellOkT (encodeT t) = true) :=
  ⟨fun as m n pj => rfl, ⟨rfl, rfl⟩, ⟨rfl, rfl⟩, ⟨rfl, rfl⟩, ⟨rfl, rfl⟩, ⟨rfl, rfl⟩,
    ⟨rfl, rfl⟩, ⟨rfl, rfl⟩, ⟨rfl, rfl⟩, ⟨rfl, rfl⟩, fun j => rfl, fun j => rfl,
    spellOkT_encodeT⟩

theorem lowHex_isWordChar (c : Char) (h : isLowerHexChar c = true) : isWordChar c = true := by
  simp only [isLowerHexChar, Bool.or_eq_true, Bool.and_eq_true, decide_eq_true_eq] at h
  simp only [isWordChar, Bool.or_eq_true, Bool.and_eq_true, decide_eq_true_eq, beq_iff_eq]
  omega

theorem boundary_headNotWord (rest : List Char) (h : boundaryOk rest = true) :
    headNotWord rest = true := by
  cases rest with
  | nil => rfl
  | cons c r =>
      rw [boundaryOk] at h
      rw [headNotWord]
      simp only [Bool.or_eq_true, beq_iff_eq] at h
      rcases h with rfl | rfl <;> decide

theorem takeWord_append (w rest : List Char) (hw : w.all isWordChar = true)
    (hr : headNotWord rest = true) : takeWord (w ++ rest) = (w, rest) := by
  induction w with
  | nil =>
      rw [List.nil_append, takeWord]
      cases rest with
      | nil => rfl
      | cons c r =>
          rw [headNotWord] at hr
          have hc : isWordChar c = false := by
            cases hcc : isWordChar c
            · rfl
            · rw [hcc] at hr; exact absurd hr (by decide)
          simp [List.takeWhile_cons, List.dropWhile_cons, hc]
  | cons a w' ih =>
      rw [List.all_cons, Bool.and_eq_true] at hw
      have hrec := ih hw.2
      rw [takeWord] at hrec
      have h1 := congrArg Prod.fst hrec
      have h2 := congrArg Prod.snd hrec
      simp only at h1 h2
      rw [List.cons_append, takeWord]
      simp [List.takeWhile_cons, List.dropWhile_cons, hw.1, h1, h2]

theorem addrChars_word (a : Nat) : (addrChars a).all isWordChar = true := by
  rw [List.all_eq_true]
  exact fun c hc => lowHex_isWordChar c (addrChars_lowHex a c hc)

theorem addrCanonicalChars_word (wp : Bool) (a : Nat) :
    (addrCanonicalChars wp a).all isWordChar = true := by
  cases wp with
  | false => simpa [addrCanonicalChars] using addrChars_word a
  | true =>
      rw [addrCanonicalChars]
      simp only [if_pos, List.all_append, Bool.and_eq_true]
      exact ⟨by decide, addrChars_word a⟩

theorem addrChars_ne_nil (a : Nat) : addrChars a ≠ [] := by
  intro hh
  have := addrChars_length a
  rw [hh] at this
  simp at this

theorem allHex_not_kw (w : List Char) (hw : w.all isLowerHexChar = true) :
    keywordPrim w = none ∧ w ≠ "vector".data := by
  have h1 : w ≠ "bool".data := by rintro rfl; exact absurd hw (by decide)
  have h2 : w ≠ "u8".data := by rintro rfl; exact absurd hw (by decide)
  have h3 : w ≠ "u16".data := by rintro rfl; exact absurd hw (by decide)
  have h4 : w ≠ "u32".data := by rintro rfl; exact absurd hw (by decide)
  have h5 : w ≠ "u64".data := by rintro rfl; exact absurd hw (by decide)
  have h6 : w ≠ "u128".data := by rintro rfl; exact absurd hw (by decide)
  have h7 : w ≠ "u256".data := by rintro rfl; exact absurd hw (by decide)
  have h8 : w ≠ "address".data := by rintro rfl; exact absurd hw (by decide)
  have h9 : w ≠ "signer".data := by rintro rfl; exact absurd hw (by decide)
  have h10 : w ≠ "vector".data := by rintro rfl; exact absurd hw (by decide)
  refine ⟨?_, h10⟩
  rw [keywordPrim, if_neg h1, if_neg h2, if_neg h3, if_neg h4, if_neg h5, if_neg h6,
    if_neg h7, if_neg h8, if_neg h9]

theorem consZero_ne (r : List Char) (kw : List Char) (hk : kw.head? ≠ some '0') :
    ('0' :: r) ≠ kw := by
  intro h
  rw [← h] at hk
  exact hk rfl

theorem zeroStart_not_kw (r : List Char) :
    keywordPrim ('0' :: r) = none ∧ ('0' :: r) ≠ "vector".data := by
  refine ⟨?_, consZero_ne r _ (by decide)⟩
  rw [keywordPrim, if_neg (consZero_ne r _ (by decide)), if_neg (consZero_ne r _ (by decide)),
    if_neg (consZero_ne r _ (by decide)), if_neg (consZero_ne r _ (by decide)),
    if_neg (consZero_ne r _ (by decide)), if_neg (consZero_ne r _ (by decide)),
    if_neg (consZero_ne r _ (by decide)), if_neg (consZero_ne r _ (by decide)),
    if_neg (consZero_ne r _ (by decide))]

theorem addrCanonical_not_kw (wp : Bool) (a : Nat) :
    keywordPrim (addrCanonicalChars wp a) = none ∧
      addrCanonicalChars wp a ≠ "vector".data := by
  cases wp with
  | false =>
      refine (allHex_not_kw _ ?_)
      simpa [addrCanonicalChars] using (List.all_eq_true.2 (addrChars_lowHex a))
  | true =>
      have : addrCanonicalChars true a = '0' :: 'x' :: addrChars a := by
        rw [addrCanonicalChars]
        rfl
      rw [this]
      exact zeroStart_not_kw _

theorem addrCanonicalChars_ne_nil (wp : Bool) (a : Nat) : addrCanonicalChars wp a ≠ [] := by
  cases wp with
  | false => simpa [addrCanonicalChars] using addrChars_ne_nil a
  | true => rw [addrCanonicalChars]; simp

theorem parseAddrWord_canonical (wp : Bool) (a : Nat) (h : a < addrBound) :
    parseAddrWord (addrCanonicalChars wp a) = some a := by
  have hne := addrChars_ne_nil a
  have hhex : (addrChars a).all isLowerHexChar = true :=
    List.all_eq_true.2 (addrChars_lowHex a)
  cases wp with
  | false =>
      have hsimp : addrCanonicalChars false a = addrChars a := by
        rw [addrCanonicalChars]
        rfl
      rw [hsimp, parseAddrWord]
      have htake : ¬ ((addrChars a).take 2 = ['0', 'x']) := by
        intro hth
        have hx : 'x' ∈ (addrChars a).take 2 := by rw [hth]; simp
        have hx2 : 'x' ∈ addrChars a := List.take_subset _ _ hx
        exact absurd (addrChars_lowHex a 'x' hx2) (by decide)
      rw [if_neg htake, if_pos ⟨hne, hhex⟩, decodeHexNat_addrChars, Nat.mod_eq_of_lt h]
  | true =>
      have hsimp : addrCanonicalChars true a = '0' :: 'x' :: addrChars a := by
        rw [addrCanonicalChars]
        rfl
      rw [hsimp, parseAddrWord]
      have ht : List.take 2 ('0' :: 'x' :: addrChars a) = ['0', 'x'] := rfl
      rw [if_pos ht]
      have hdrop : List.drop 2 ('0' :: 'x' :: addrChars a) = addrChars a := rfl
      rw [hdrop, if_pos ⟨hne, hhex⟩, decodeHexNat_addrChars, Nat.mod_eq_of_lt h]

theorem validIdent_all_word (cs : List Char) (h : validIdentChars cs = true) :
    cs.all isWordChar = true := by
  cases cs with
  | nil => simp [validIdentChars] at h
  | cons c rest =>
      simp only [validIdentChars, Bool.and_eq_true, Bool.or_eq_true, beq_iff_eq,
        decide_eq_true_eq] at h
      obtain ⟨⟨hor, hrest⟩, _⟩ := h
      rw [List.all_cons, Bool.and_eq_true]
      refine ⟨?_, hrest⟩
      rcases hor with ha | rfl
      · simp only [isAsciiAlpha, Bool.or_eq_true, Bool.and_eq_true, decide_eq_true_eq] at ha
        simp only [isWordChar, Bool.or_eq_true, Bool.and_eq_true, decide_eq_true_eq,
          beq_iff_eq]
        omega
      · decide


mutual
theorem parse_canonT (t : TypeTag) (wp : Bool) (fuel : Nat) (rest : List Char)
    (hv : validT t = true) (hf : fuelT t ≤ fuel) (hb : boundaryOk rest = true) :
    parseTypeTag fuel (canonT wp t ++ rest) = some (t, rest) := by
  cases t with
  | bool =>
      cases fuel with
      | zero => exact absurd hf (by decide)
      | succ f =>
          rw [show canonT wp TypeTag.bool ++ rest = ['b', 'o', 'o', 'l'] ++ rest from rfl]
          simp only [parseTypeTag,
            takeWord_append ['b', 'o', 'o', 'l'] rest (by decide) (boundary_headNotWord rest hb)]
          rfl
  | u8 =>
      cases fuel with
      | zero => exact absurd hf (by decide)
      | succ f =>
          rw [show canonT wp TypeTag.u8 ++ rest = ['u', '8'] ++ rest from rfl]
          simp only [parseTypeTag,
            takeWord_append ['u', '8'] rest (by decide) (boundary_headNotWord rest hb)]
          rfl
  | u16 =>
      cases fuel with
      | zero => exact absurd hf (by decide)
      | succ f =>
          rw [show canonT wp TypeTag.u16 ++ rest = ['u', '1', '6'] ++ rest from rfl]
          simp only [parseTypeTag,
            takeWord_append ['u', '1', '6'] rest (by decide) (boundary_headNotWord rest hb)]
          rfl
  | u32 =>
      cases fuel with
      | zero => exact absurd hf (by decide)
      | succ f =>
          rw [show canonT wp TypeTag.u32 ++ rest = ['u', '3', '2'] ++ rest from rfl]
          simp only [parseTypeTag,
            takeWord_append ['u', '3', '2'] rest (by decide) (boundary_headNotWord rest hb)]
          rfl
  | u64 =>
      cases fuel with
      | zero => exact absurd hf (by decide)
      | succ f =>
          rw [show canonT wp TypeTag.u64 ++ rest = ['u', '6', '4'] ++ rest from rfl]
          simp only [parseTypeTag,
            takeWord_append ['u', '6', '4'] rest (by decide) (boundary_headNotWord rest hb)]
          rfl
  | u128 =>
      cases fuel with
      | zero => exact absurd hf (by decide)
      | succ f =>
          rw [show canonT wp TypeTag.u128 ++ rest = ['u', '1', '2', '8'] ++ rest from rfl]
          simp only [parseTypeTag,
            takeWord_append ['u', '1', '2', '8'] rest (by decide) (boundary_headNotWord rest hb)]
          rfl
  | u256 =>
      cases fuel with
      | zero => exact absurd hf (by decide)
      | succ f =>
          rw [show canonT wp TypeTag.u256 ++ rest = ['u', '2', '5', '6'] ++ rest from rfl]
          simp only [parseTypeTag,
            takeWord_append ['u', '2', '5', '6'] rest (by decide) (boundary_headNotWord rest hb)]
          rfl
  | address =>
      cases fuel with
      | zero => exact absurd hf (by decide)
      | succ f =>
          rw [show canonT wp TypeTag.address ++ rest =
            ['a', 'd', 'd', 'r', 'e', 's', 's'] ++ rest from rfl]
          simp only [parseTypeTag,
            takeWord_append ['a', 'd', 'd', 'r', 'e', 's', 's'] rest (by decide)
              (boundary_headNotWord rest hb)]
          rfl
  | signer =>
      cases fuel with
      | zero => exact absurd hf (by decide)
      | succ f =>
          rw [show canonT wp TypeTag.signer ++ rest =
            ['s', 'i', 'g', 'n', 'e', 'r'] ++ rest from rfl]
          simp only [parseTypeTag,
            takeWord_append ['s', 'i', 'g', 'n', 'e', 'r'] rest (by decide)
              (boundary_headNotWord rest hb)]
          rfl
  | vector x =>
      rw [validT] at hv
      rw [fuelT] at hf
      cases fuel with
      | zero => omega
      | succ f =>
          have hsplit : canonT wp (.vector x) ++ rest =
              ['v', 'e', 'c', 't', 'o', 'r'] ++ ('<' :: (canonT wp x ++ ('>' :: rest))) := by
            rw [canonT]
            simp
          have hrec := parse_canonT x wp f ('>' :: rest) hv (by omega) (by rw [boundaryOk]; decide)
          rw [hsplit]
          simp only [parseTypeTag,
            takeWord_append ['v', 'e', 'c', 't', 'o', 'r'] ('<' :: (canonT wp x ++ ('>' :: rest)))
              (by decide) (by rw [headNotWord]; decide),
            keywordPrim, hrec]
          rfl
  | struct s =>
      cases s with
      | mk a m n ps =>
          rw [validT, validS] at hv
          simp only [Bool.and_eq_true, decide_eq_true_eq] at hv
          obtain ⟨⟨⟨ha, hm⟩, hn⟩, hps⟩ := hv
          rw [fuelT, fuelS] at hf
          cases fuel with
          | zero => omega
          | succ f =>
              have hsplit : canonT wp (.struct (.mk a m n ps)) ++ rest =
                  addrCanonicalChars wp a ++
                    (':' :: ':' :: (m.data ++
                      (':' :: ':' :: (n.data ++ (canonArgs wp ps ++ rest))))) := by
                rw [canonT, canonS]
                rw [show "::".data = [':', ':'] from rfl]
                simp [List.append_assoc]
              have hS := parse_canonS a m n ps wp f rest ha hm hn hps (by omega) hb
              rw [hsplit]
              simp only [parseTypeTag,
                takeWord_append (addrCanonicalChars wp a)
                  (':' :: ':' :: (m.data ++ (':' :: ':' :: (n.data ++ (canonArgs wp ps ++ rest)))))
                  (addrCanonicalChars_word wp a) (by rw [headNotWord]; decide),
                addrCanonicalChars_ne_nil wp a, (addrCanonical_not_kw wp a).1,
                (addrCanonical_not_kw wp a).2, parseAddrWord_canonical wp a ha, hS]
              simp
termination_by sizeOf t

theorem parse_canonS (a : Nat) (m n : String) (ps : List TypeTag) (wp : Bool)
    (fuel : Nat) (rest : List Char)
    (ha : a < addrBound) (hm : validIdentChars m.data = true)
    (hn : validIdentChars n.data = true) (hps : validL ps = true)
    (hf : 1 + fuelL ps ≤ fuel) (hb : boundaryOk rest = true) :
    parseStructAfterAddr fuel a
      (':' :: ':' :: (m.data ++ (':' :: ':' :: (n.data ++ (canonArgs wp ps ++ rest))))) =
      some (.mk a m n ps, rest) := by
  cases fuel with
  | zero => omega
  | succ f =>
      cases ps with
      | nil =>
          simp only [canonArgs, List.nil_append]
          simp only [parseStructAfterAddr,
            takeWord_append m.data (':' :: ':' :: (n.data ++ rest))
              (validIdent_all_word _ hm) (by rw [headNotWord]; decide),
            hm,
            takeWord_append n.data rest (validIdent_all_word _ hn)
              (boundary_headNotWord rest hb),
            hn]
          cases rest with
          | nil => rfl
          | cons c r =>
              rw [boundaryOk] at hb
              simp only [Bool.or_eq_true, beq_iff_eq] at hb
              rcases hb with rfl | rfl <;> rfl
      | cons t ts =>
          have hsplit2 : canonArgs wp (t :: ts) ++ rest =
              '<' :: (canonT wp t ++ (canonArgsTail wp ts ++ ('>' :: rest))) := by
            rw [canonArgs]
            simp [List.append_assoc]
          rw [hsplit2]
          have hA := parse_canonArgs (t :: ts) t ts wp f rest rfl hps (by omega) hb
          simp only [parseStructAfterAddr,
            takeWord_append m.data
              (':' :: ':' :: (n.data ++ ('<' :: (canonT wp t ++ (canonArgsTail wp ts ++ ('>' :: rest))))))
              (validIdent_all_word _ hm) (by rw [headNotWord]; decide),
            hm,
            takeWord_append n.data ('<' :: (canonT wp t ++ (canonArgsTail wp ts ++ ('>' :: rest))))
              (validIdent_all_word _ hn) (by rw [headNotWord]; decide),
            hn, hA]
          simp
termination_by sizeOf ps + 1

theorem parse_canonArgs (ps : List TypeTag) (t : TypeTag) (ts : List TypeTag) (wp : Bool)
    (fuel : Nat) (rest : List Char) (hps : ps = t :: ts)
    (hv : validL ps = true) (hf : fuelL ps ≤ fuel) (hb : boundaryOk rest = true) :
    parseArgs fuel (canonT wp t ++ (canonArgsTail wp ts ++ ('>' :: rest))) =
      some (ps, rest) := by
  subst hps
  rw [validL, Bool.and_eq_true] at hv
  obtain ⟨hvt, hvts⟩ := hv
  rw [fuelL] at hf
  cases fuel with
  | zero => omega
  | succ f =>
      have hbound : boundaryOk (canonArgsTail wp ts ++ ('>' :: rest)) = true := by
        cases ts with
        | nil => rw [canonArgsTail]; simp [boundaryOk]
        | cons t' ts' => rw [canonArgsTail]; simp [boundaryOk]
      have hrec := parse_canonT t wp f (canonArgsTail wp ts ++ ('>' :: rest)) hvt
        (by omega) hbound
      simp only [parseArgs, hrec]
      cases ts with
      | nil => simp only [canonArgsTail, List.nil_append]
      | cons t' ts' =>
          have hsplit3 : canonArgsTail wp (t' :: ts') ++ ('>' :: rest) =
              ',' :: (canonT wp t' ++ (canonArgsTail wp ts' ++ ('>' :: rest))) := by
            rw [canonArgsTail]
            simp [List.append_assoc]
          rw [hsplit3]
          have hA := parse_canonArgs (t' :: ts') t' ts' wp f rest rfl hvts (by omega) hb
          simp only [hA]
termination_by sizeOf ps
end

theorem addrCanonicalChars_len (wp : Bool) (a : Nat) :
    64 ≤ (addrCanonicalChars wp a).length := by
  cases wp <;> simp [addrCanonicalChars, List.length_append, addrChars_length]

theorem takeWord_all (l : List Char) (hw : l.all isWordChar = true) :
    takeWord l = (l, []) := by
  have := takeWord_append l [] hw rfl
  rwa [List.append_nil] at this

mutual
theorem fuelT_le (t : TypeTag) : ∀ wp, fuelT t ≤ (canonT wp t).length := by
  cases t with
  | vector x =>
      intro wp
      rw [fuelT, canonT]
      have := fuelT_le x wp
      simp [List.length_append]
      omega
  | struct s =>
      cases s with
      | mk a m n ps =>
          intro wp
          rw [fuelT, fuelS, canonT, canonS]
          have h1 := addrCanonicalChars_len wp a
          have h2 := fuelArgs_le ps wp
          simp [List.length_append]
          omega
  | bool => intro wp; rw [canonT]; decide
  | u8 => intro wp; rw [canonT]; decide
  | u16 => intro wp; rw [canonT]; decide
  | u32 => intro wp; rw [canonT]; decide
  | u64 => intro wp; rw [canonT]; decide
  | u128 => intro wp; rw [canonT]; decide
  | u256 => intro wp; rw [canonT]; decide
  | address => intro wp; rw [canonT]; decide
  | signer => intro wp; rw [canonT]; decide
termination_by sizeOf t

theorem fuelArgs_le (ps : List TypeTag) : ∀ wp, fuelL ps ≤ (canonArgs wp ps).length := by
  cases ps with
  | nil => intro wp; rw [fuelL, canonArgs]; simp
  | cons t ts =>
      intro wp
      rw [fuelL, canonArgs]
      have h1 := fuelT_le t wp
      have h2 := fuelTail_le ts wp
      simp [List.length_append]
      omega
termination_by sizeOf ps + 1

theorem fuelTail_le (ts : List TypeTag) : ∀ wp, fuelL ts ≤ (canonArgsTail wp ts).length + 1 := by
  cases ts with
  | nil => intro wp; rw [fuelL, canonArgsTail]; simp
  | cons t ts' =>
      intro wp
      rw [fuelL, canonArgsTail]
      have h1 := fuelT_le t wp
      have h2 := fuelTail_le ts' wp
      simp [List.length_append]
      omega
termination_by sizeOf ts
end

/-- Claim C3: for every valid `TypeTag`, `StructTag` or `ModuleId` value and
for both `with_prefix` settings, parsing the canonical rendering back through
the `FromStr` grammar returns the original value. -/
theorem claim_C3_parse_roundtrip :
    (∀ (t : TypeTag) (wp : Bool), validT t = true →
      TypeTag.from_str (t.to_canonical_string wp) = some t) ∧
    (∀ (s : StructTag) (wp : Bool), validS s = true →
      StructTag.from_str (s.to_canonical_string wp) = some s) ∧
    (∀ (q : ModuleId) (wp : Bool), validM q = true →
      ModuleId.from_str (q.to_canonical_string wp) = some q) := by
  refine ⟨fun t wp hv => ?_, fun s wp hv => ?_, fun q wp hv => ?_⟩
  · have hdata : (t.to_canonical_string wp).data = canonT wp t := rfl
    have h := parse_canonT t wp ((canonT wp t).length + 1) [] hv
      (by have := fuelT_le t wp; omega) rfl
    rw [List.append_nil] at h
    simp only [TypeTag.from_str, hdata, h]
  · cases s with
    | mk a m n ps =>
        rw [validS] at hv
        simp only [Bool.and_eq_true, decide_eq_true_eq] at hv
        obtain ⟨⟨⟨ha, hm⟩, hn⟩, hps⟩ := hv
        have hdata : ((StructTag.mk a m n ps).to_canonical_string wp).data =
            addrCanonicalChars wp a ++
              (':' :: ':' :: (m.data ++ (':' :: ':' :: (n.data ++ canonArgs wp ps)))) := by
          show canonS wp (.mk a m n ps) = _
          rw [canonS, show "::".data = [':', ':'] from rfl]
          simp [List.append_assoc]
        have hlen : 1 + fuelL ps ≤
            (addrCanonicalChars wp a ++
              (':' :: ':' :: (m.data ++ (':' :: ':' :: (n.data ++ canonArgs wp ps))))).length + 1 := by
          have h1 := fuelT_le (.struct (.mk a m n ps)) wp
          rw [fuelT, fuelS, canonT] at h1
          have h2 : (canonS wp (StructTag.mk a m n ps)).length =
              (addrCanonicalChars wp a ++
                (':' :: ':' :: (m.data ++ (':' :: ':' :: (n.data ++ canonArgs wp ps))))).length :=
            congrArg List.length hdata
          omega
        have h := parse_canonS a m n ps wp
          ((addrCanonicalChars wp a ++
            (':' :: ':' :: (m.data ++ (':' :: ':' :: (n.data ++ canonArgs wp ps))))).length + 1)
          [] ha hm hn hps hlen rfl
        rw [List.append_nil] at h
        simp only [StructTag.from_str, hdata,
          takeWord_append (addrCanonicalChars wp a)
            (':' :: ':' :: (m.data ++ (':' :: ':' :: (n.data ++ canonArgs wp ps))))
            (addrCanonicalChars_word wp a) (by rw [headNotWord]; decide),
          parseAddrWord_canonical wp a ha, h]
  · cases q with
    | mk a nm =>
        rw [validM] at hv
        simp only [Bool.and_eq_true, decide_eq_true_eq] at hv
        obtain ⟨ha, hn⟩ := hv
        have hdata : ((ModuleId.mk a nm).to_canonical_string wp).data =
            addrCanonicalChars wp a ++ (':' :: ':' :: nm.data) := by
          show addrCanonicalChars wp a ++ "::".data ++ nm.data = _
          rw [show "::".data = [':', ':'] from rfl]
          simp [List.append_assoc]
        simp only [ModuleId.from_str, hdata,
          takeWord_append (addrCanonicalChars wp a) (':' :: ':' :: nm.data)
            (addrCanonicalChars_word wp a) (by rw [headNotWord]; decide),
          parseAddrWord_canonical wp a ha,
          takeWord_all nm.data (validIdent_all_word _ hn), hn]
        simp

/-- Witness for C3 at the concrete golden value `0x1::string::String` with
the prefix enabled. -/
theorem claim_C3_witness :
    validT (.struct (.mk 1 "string" "String" [])) = true ∧
    TypeTag.from_str ((TypeTag.struct (.mk 1 "string" "String" [])).to_canonical_string true) =
      some (.struct (.mk 1 "string" "String" [])) :=
  ⟨by decide, claim_C3_parse_roundtrip.1 _ true (by decide)⟩
